import Mathlib

/-!
A Lean model of the computational core of `data-viewer-audio`
(`src/main.rs`): schema normalization (`extract_parquet`), the
materialization cache (`extract_parquet_file`), pagination (`view_file`,
lines 410-422), the two histogram builders (`Histogram::new`,
`IntHistogram::new`) and `format_duration`.

Modelling conventions: `usize` values are `Nat` with explicit wrap-around
at `2 ^ 64` (two's-complement semantics of release builds; debug builds
panic where the release build wraps, which is recorded where relevant).
`f64` arithmetic is modelled exactly over `ℚ`; the quantities involved
(durations, bin widths, page counts below `2 ^ 53`) are represented
exactly by `f64`-like rounding-free rationals, and `NaN` inputs are
outside every claim considered here.  A Rust panic (`unwrap`, slice range
failure, assert) is modelled as `none` / a dedicated `crashed` outcome.
-/

/-- Width of `usize` on the 64-bit targets the program is built for
(`2 ^ 64`, written as a literal). -/
def USIZE : Nat := 18446744073709551616

/-- Wrapping `usize` subtraction, the release-build semantics of `a - b`. -/
def usizeSub (a b : Nat) : Nat := (a + (USIZE - b % USIZE)) % USIZE

/-- Wrapping `usize` multiplication. -/
def usizeMul (a b : Nat) : Nat := a * b % USIZE

/-- Wrapping `usize` addition. -/
def usizeAdd (a b : Nat) : Nat := (a + b) % USIZE

/-- The pagination slice of `view_file` (`main.rs` lines 415-422):
`start = (page - 1) * page_size`, `end = (start + page_size).min(total_items)`,
returning `&files[start..end]` when `start < files.len()` and `&[]`
otherwise.  The arithmetic wraps like `usize` in a release build; the
slice expression itself panics when `end < start`, modelled as `none`. -/
def viewPaginate {α : Type} (records : List α) (page pageSize : Nat) :
    Option (List α) :=
  let start := usizeMul (usizeSub page 1) pageSize
  if start < records.length then
    let stop := min (usizeAdd start pageSize) records.length
    if start ≤ stop then some ((records.drop start).take (stop - start))
    else none
  else some []

/-- The slice the specification prescribes for pagination, written from its
words: `records[(page-1)*page_size : min(page*page_size, total_items)]`,
with exact (non-wrapping) arithmetic. -/
def specSlice {α : Type} (records : List α) (page pageSize : Nat) : List α :=
  (records.take (min (page * pageSize) records.length)).drop
    ((page - 1) * pageSize)

/-- `total_pages` of `view_file` (line 413):
`(total_items as f64 / page_size as f64).ceil() as usize`, with the `f64`
division modelled exactly over `ℚ` (exact for all lengths below `2 ^ 53`). -/
def totalPages (totalItems pageSize : Nat) : Nat :=
  Nat.ceil ((totalItems : ℚ) / (pageSize : ℚ))

/-- Concatenation of all pages `1 .. total_pages` produced by `view_file`. -/
def allPages {α : Type} (records : List α) (pageSize : Nat) : List α :=
  (List.range (totalPages records.length pageSize)).flatMap
    (fun k => (viewPaginate records (k + 1) pageSize).getD [])

theorem usizeSub_one (page : Nat) (h1 : 1 ≤ page) (h2 : page < USIZE) :
    usizeSub page 1 = page - 1 := by
  unfold usizeSub USIZE at *
  omega

theorem usizeMul_eq (a b : Nat) (h : a * b < USIZE) : usizeMul a b = a * b :=
  Nat.mod_eq_of_lt h

theorem usizeAdd_eq (a b : Nat) (h : a + b < USIZE) : usizeAdd a b = a + b :=
  Nat.mod_eq_of_lt h

/-- The start offset computed by `view_file` for a valid page number. -/
theorem viewPaginate_start (page pageSize : Nat) (hpage : 1 ≤ page)
    (hsz : 1 ≤ pageSize) (hov : page * pageSize < USIZE) :
    usizeMul (usizeSub page 1) pageSize = (page - 1) * pageSize := by
  have hps : page < USIZE :=
    calc page = page * 1 := (Nat.mul_one page).symm
      _ ≤ page * pageSize := Nat.mul_le_mul_left page hsz
      _ < USIZE := hov
  rw [usizeSub_one page hpage hps, usizeMul_eq]
  exact lt_of_le_of_lt (Nat.mul_le_mul_right pageSize (Nat.sub_le page 1)) hov

/-- On a valid page with no `usize` overflow, the code's slice is the
specified slice. -/
theorem viewPaginate_eq_spec {α : Type} (records : List α) (page ps : Nat)
    (hpage : 1 ≤ page) (hps : 1 ≤ ps) (hov : page * ps < USIZE) :
    viewPaginate records page ps = some (specSlice records page ps) := by
  have hmul : (page - 1) * ps + ps = page * ps := by
    cases page with
    | zero => omega
    | succ n => simp [Nat.succ_sub_one, Nat.succ_mul]
  have hstart := viewPaginate_start page ps hpage hps hov
  have hadd : usizeAdd ((page - 1) * ps) ps = page * ps := by
    rw [usizeAdd_eq _ _ (by omega)]; omega
  unfold viewPaginate specSlice
  simp only [hstart, hadd]
  by_cases hlt : (page - 1) * ps < records.length
  · have hcond : (page - 1) * ps ≤ min (page * ps) records.length := by omega
    have harith : (page - 1) * ps +
        (min (page * ps) records.length - (page - 1) * ps) =
        min (page * ps) records.length := by omega
    rw [if_pos hlt, if_pos hcond, List.take_drop, harith]
  · rw [if_neg hlt]
    congr 1
    symm
    rw [List.drop_eq_nil_iff, List.length_take]
    omega

/-- Page `k + 1` is exactly the `k`-th chunk of size `ps`, as long as the
chunk starts inside the list and nothing overflows. -/
theorem viewPaginate_chunk {α : Type} (l : List α) (ps k : Nat) (hps : 1 ≤ ps)
    (hk : k * ps < l.length) (hov : l.length + ps < USIZE) :
    viewPaginate l (k + 1) ps = some ((l.drop (k * ps)).take ps) := by
  have hsucc : (k + 1) * ps = k * ps + ps := Nat.succ_mul k ps
  have hov2 : (k + 1) * ps < USIZE := by omega
  rw [viewPaginate_eq_spec l (k + 1) ps (Nat.le_add_left 1 k) hps hov2]
  congr 1
  unfold specSlice
  simp only [Nat.add_sub_cancel]
  rcases le_or_lt ((k + 1) * ps) l.length with hle | hlt
  · rw [min_eq_left hle, List.take_drop, hsucc]
  · rw [min_eq_right (le_of_lt hlt), List.take_length,
      List.take_of_length_le (by rw [List.length_drop]; omega)]

/-- Concatenating consecutive `ps`-chunks gives a prefix of the list. -/
theorem flatMap_chunks {α : Type} (l : List α) (ps : Nat) :
    ∀ m, (List.range m).flatMap (fun k => (l.drop (k * ps)).take ps) =
      l.take (m * ps)
  | 0 => by simp
  | m + 1 => by
    rw [List.range_succ, List.flatMap_append, flatMap_chunks l ps m]
    simp only [List.flatMap_cons, List.flatMap_nil, List.append_nil]
    rw [← List.take_add, Nat.succ_mul]

theorem le_totalPages_mul (t ps : Nat) (hps : 1 ≤ ps) :
    t ≤ totalPages t ps * ps := by
  have hq : (0 : ℚ) < ps := by exact_mod_cast hps
  have h := Nat.le_ceil ((t : ℚ) / ps)
  have h2 : (t : ℚ) ≤ (totalPages t ps : ℚ) * ps := (div_le_iff₀ hq).mp h
  exact_mod_cast h2

theorem totalPages_mul_lt (t ps k : Nat) (hps : 1 ≤ ps)
    (hk : k < totalPages t ps) : k * ps < t := by
  have hq : (0 : ℚ) < ps := by exact_mod_cast hps
  have h : (k : ℚ) < (t : ℚ) / ps := by
    rw [← Nat.lt_ceil]; exact_mod_cast hk
  have h2 : (k : ℚ) * ps < t := (lt_div_iff₀ hq).mp h
  exact_mod_cast h2

/-- Pages `1 .. total_pages` concatenate back to the whole record list. -/
theorem allPages_eq {α : Type} (records : List α) (ps : Nat) (hps : 1 ≤ ps)
    (hov : records.length + ps < USIZE) :
    allPages records ps = records := by
  unfold allPages
  rw [List.flatMap_def, List.map_congr_left (g := fun k =>
      (records.drop (k * ps)).take ps), ← List.flatMap_def,
    flatMap_chunks records ps, List.take_of_length_le
      (le_totalPages_mul records.length ps hps)]
  intro k hkmem
  rw [viewPaginate_chunk records ps k hps
    (totalPages_mul_lt records.length ps k hps (List.mem_range.mp hkmem)) hov]
  rfl

/-- C7: for every `total_items ≥ 0` and `page_size ≥ 1`, `view_file`
computes `total_pages = ceil(total_items / page_size)` — equivalently the
integer ceiling division `(t + ps - 1) / ps` — and in particular
`total_pages = 0` when `total_items = 0`. -/
theorem totalPages_is_ceil (t ps : Nat) (hps : 1 ≤ ps) :
    totalPages t ps = (t + ps - 1) / ps ∧ (t = 0 → totalPages t ps = 0) := by
  have hq : (0 : ℚ) < ps := by exact_mod_cast hps
  constructor
  · rcases Nat.eq_zero_or_pos t with ht | ht
    · subst ht
      have hdiv : (ps - 1) / ps = 0 := Nat.div_eq_of_lt (by omega)
      simp [totalPages, hdiv]
    · apply le_antisymm
      · rw [totalPages, Nat.ceil_le, div_le_iff₀ hq]
        have h1 := Nat.div_add_mod (t + ps - 1) ps
        have h2 : (t + ps - 1) % ps < ps := Nat.mod_lt _ hps
        have key : t ≤ (t + ps - 1) / ps * ps := by
          rw [Nat.mul_comm]
          generalize hA : ps * ((t + ps - 1) / ps) = A at h1
          omega
        calc (t : ℚ) ≤ ((((t + ps - 1) / ps) * ps : ℕ) : ℚ) := by
              exact_mod_cast key
          _ = (((t + ps - 1) / ps : ℕ) : ℚ) * (ps : ℚ) := by push_cast; ring
      · rcases Nat.eq_zero_or_pos ((t + ps - 1) / ps) with h0 | h0
        · omega
        · have h3 : (t + ps - 1) / ps * ps ≤ t + ps - 1 :=
            (Nat.le_div_iff_mul_le (by omega)).mp (le_refl _)
          have h4 : ((t + ps - 1) / ps - 1) * ps + ps = (t + ps - 1) / ps * ps := by
            generalize hd : (t + ps - 1) / ps = d at h0
            cases d with
            | zero => omega
            | succ n => simp [Nat.succ_sub_one, Nat.succ_mul]
          have hlt : ((t + ps - 1) / ps - 1) * ps < t := by
            generalize hA : ((t + ps - 1) / ps - 1) * ps = A at h4
            generalize hB : (t + ps - 1) / ps * ps = B at h3 h4
            omega
          have h5 : ((t + ps - 1) / ps - 1 : ℕ) < Nat.ceil ((t : ℚ) / ps) := by
            rw [Nat.lt_ceil, lt_div_iff₀ hq]
            exact_mod_cast hlt
          unfold totalPages
          omega
  · intro ht
    subst ht
    simp [totalPages]

/-- C7 witness: the theorem instantiated at `total_items = 25`,
`page_size = 10`. -/
theorem totalPages_is_ceil_witness :
    1 ≤ 10 ∧ (totalPages 25 10 = (25 + 10 - 1) / 10 ∧
      (25 = 0 → totalPages 25 10 = 0)) :=
  ⟨by decide, totalPages_is_ceil 25 10 (by decide)⟩

/-- C6 (amended): for every record list, and every `page ≥ 1`,
`page_size ≥ 1` such that `page * page_size` does not overflow `usize`
(and, for the concatenation part, `total_items + page_size < 2 ^ 64`), the
returned page is exactly `records[(page-1)*page_size :
min(page*page_size, total_items)]`, is empty whenever the start offset
reaches `total_items`, and the concatenation of pages `1 .. total_pages`
reconstructs the original sequence.  (Without the overflow bound the
wrapped start offset can alias a valid position; see the
counterexample.) -/
theorem paginate_slice_total (α : Type) (records : List α) (page ps : Nat)
    (hpage : 1 ≤ page) (hps : 1 ≤ ps) (hov : page * ps < USIZE)
    (hlen : records.length + ps < USIZE) :
    viewPaginate records page ps = some (specSlice records page ps) ∧
    (records.length ≤ (page - 1) * ps → viewPaginate records page ps = some []) ∧
    allPages records ps = records := by
  refine ⟨viewPaginate_eq_spec records page ps hpage hps hov, ?_,
    allPages_eq records ps hps hlen⟩
  intro hge
  rw [viewPaginate_eq_spec records page ps hpage hps hov]
  congr 1
  unfold specSlice
  rw [List.drop_eq_nil_iff, List.length_take]
  omega

/-- C6 witness: the theorem instantiated at a three-element list with
`page = 2`, `page_size = 2`. -/
theorem paginate_slice_total_witness :
    1 ≤ 2 ∧ 2 * 2 < USIZE ∧ ([10, 20, 30] : List Nat).length + 2 < USIZE ∧
    (viewPaginate [10, 20, 30] 2 2 = some (specSlice [10, 20, 30] 2 2) ∧
      (([10, 20, 30] : List Nat).length ≤ (2 - 1) * 2 →
        viewPaginate [10, 20, 30] 2 2 = some []) ∧
      allPages ([10, 20, 30] : List Nat) 2 = [10, 20, 30]) :=
  ⟨by decide, by decide, by decide,
    paginate_slice_total Nat [10, 20, 30] 2 2 (by decide) (by decide)
      (by decide) (by decide)⟩

/-- C6 counterexample: at `page = 2 ^ 62 + 1`, `page_size = 4` the start
offset `(page - 1) * page_size` wraps to `0` in `usize` arithmetic, so
`view_file` returns the first element whereas the slice the claim
prescribes is empty. -/
theorem paginate_overflow_cex :
    viewPaginate ([7] : List Nat) 4611686018427387905 4 = some [7] ∧
    specSlice ([7] : List Nat) 4611686018427387905 4 = [] := by
  constructor
  · rfl
  · rfl

/-- C3: the claim that `page < 1` behaves as `page = 1` fails on the code:
with `page = 0` the expression `(page - 1) * page_size` underflows `usize`
(wrapping in release builds, panicking in debug builds), so the returned
slice is empty instead of the first page. -/
theorem page_zero_not_page_one :
    viewPaginate ([7] : List Nat) 0 10 = some [] ∧
    viewPaginate ([7] : List Nat) 1 10 = some [7] := by
  constructor
  · rfl
  · rfl

/-- Minimum of a value list, as `Histogram::new` computes it with
`iter().min_by(partial_cmp)` (total on the NaN-free inputs modelled here);
junk value `0` on the empty list, which the source rejects by assertion. -/
def listMin : List ℚ → ℚ
  | [] => 0
  | x :: xs => xs.foldl min x

/-- Maximum of a value list (`iter().max_by(partial_cmp)`). -/
def listMax : List ℚ → ℚ
  | [] => 0
  | x :: xs => xs.foldl max x

/-- `bin_width` of `Histogram::new` (lines 102-106). -/
def binWidth (mn mx : ℚ) (numBins : Nat) : ℚ :=
  if mx = mn then 1 else (mx - mn) / numBins

/-- The bin index of `Histogram::new` (line 113):
`((value - min) / bin_width).min((num_bins - 1) as f64) as usize`.
The `as usize` cast truncates toward zero and clamps negatives to `0`,
which on these operands is `Nat.floor`. -/
def binIdx (mn bw : ℚ) (numBins : Nat) (v : ℚ) : Nat :=
  Nat.floor (min ((v - mn) / bw) ((numBins - 1 : Nat) : ℚ))

/-- `bin_counts[i] += 1` on a counts vector. -/
def bump (counts : List Nat) (i : Nat) : List Nat :=
  counts.set i (counts.getD i 0 + 1)

/-- The counting loop of `Histogram::new` (lines 108-115), including the
defensive skip of values outside `[min, max]`. -/
def binCounts (values : List ℚ) (mn mx bw : ℚ) (numBins : Nat) : List Nat :=
  values.foldl
    (fun acc v => if v < mn ∨ mx < v then acc else bump acc (binIdx mn bw numBins v))
    (List.replicate numBins 0)

/-- The f64 text histogram of `main.rs` (struct `Histogram`): bins of
`(start, end, count)` plus the largest count. -/
structure Hist where
  bins : List (ℚ × ℚ × Nat)
  max_count : Nat

/-- `Histogram::new` (lines 86-136).  The source asserts `values` nonempty
and `num_bins > 0`; the claims below carry those as hypotheses. -/
def Hist.new (values : List ℚ) (numBins : Nat) : Hist :=
  let mn := listMin values
  let mx := listMax values
  let bw := binWidth mn mx numBins
  let counts := binCounts values mn mx bw numBins
  { bins := (List.range numBins).map (fun (i : Nat) =>
      ((mn + (i : ℚ) * bw, if i = numBins - 1 then mx
          else mn + (i : ℚ) * bw + bw, counts.getD i 0) : ℚ × ℚ × Nat))
    max_count := counts.foldl max 0 }

/-- Minimum of a `usize` value list (`iter().min()` in `IntHistogram::new`);
junk value `0` on the empty list, which the source rejects by assertion. -/
def listMinN : List Nat → Nat
  | [] => 0
  | x :: xs => xs.foldl min x

/-- Maximum of a `usize` value list (`iter().max()`). -/
def listMaxN : List Nat → Nat
  | [] => 0
  | x :: xs => xs.foldl max x

/-- `bin_width` of `IntHistogram::new` (lines 190-195):
`((max - min) as f64 / num_bins as f64).ceil() as usize` when `max ≠ min`,
else `1`; the `f64` quotient of these word-sized integers is modelled
exactly over `ℚ`. -/
def intBinWidth (mn mx numBins : Nat) : Nat :=
  if mx = mn then 1 else Nat.ceil (((mx - mn : Nat) : ℚ) / (numBins : ℚ))

/-- The bin index of `IntHistogram::new` (lines 202-206). -/
def intBinIdx (mn bw numBins : Nat) (v : Nat) : Nat :=
  if 0 < bw then min ((v - mn) / bw) (numBins - 1) else 0

/-- The counting loop of `IntHistogram::new` (lines 197-208). -/
def intBinCounts (values : List Nat) (mn mx bw numBins : Nat) : List Nat :=
  values.foldl
    (fun acc v => if v < mn ∨ mx < v then acc else bump acc (intBinIdx mn bw numBins v))
    (List.replicate numBins 0)

/-- The integer text histogram of `main.rs` (struct `IntHistogram`). -/
structure IntHist where
  bins : List (Nat × Nat × Nat)
  max_count : Nat

/-- `IntHistogram::new` (lines 180-225); note the last bin's end is
`start + bin_width`, with no snapping to `max`. -/
def IntHist.new (values : List Nat) (numBins : Nat) : IntHist :=
  let mn := listMinN values
  let mx := listMaxN values
  let bw := intBinWidth mn mx numBins
  let counts := intBinCounts values mn mx bw numBins
  { bins := (List.range numBins).map (fun i =>
      (mn + i * bw, mn + i * bw + bw, counts.getD i 0))
    max_count := counts.foldl max 0 }

theorem bump_length (counts : List Nat) (i : Nat) :
    (bump counts i).length = counts.length := by
  unfold bump
  exact List.length_set counts i _

theorem bump_sum (counts : List Nat) (i : Nat) (h : i < counts.length) :
    (bump counts i).sum = counts.sum + 1 := by
  induction counts generalizing i with
  | nil => simp at h
  | cons x xs ih =>
    cases i with
    | zero => simp [bump]; omega
    | succ j =>
      have hj : j < xs.length := by simpa using h
      have := ih j hj
      simp only [bump, List.set_cons_succ, List.getD_cons_succ,
        List.sum_cons] at *
      omega

theorem bump_getD (counts : List Nat) (i j : Nat) :
    (bump counts i).getD j 0 =
      if i = j ∧ i < counts.length then counts.getD j 0 + 1
      else counts.getD j 0 := by
  induction counts generalizing i j with
  | nil => simp [bump]
  | cons x xs ih =>
    cases i with
    | zero =>
      cases j with
      | zero => simp [bump]
      | succ m => simp [bump]
    | succ n =>
      cases j with
      | zero => simp [bump]
      | succ m =>
        simp only [bump, List.set_cons_succ, List.getD_cons_succ,
          List.length_cons] at *
        rw [ih n m]
        by_cases hnm : n = m ∧ n < xs.length
        · rw [if_pos hnm, if_pos ⟨by omega, by omega⟩]
        · rw [if_neg hnm, if_neg (by omega)]

theorem foldl_skipBump_length {α : Type} (p : α → Prop) [DecidablePred p]
    (f : α → Nat) (values : List α) (init : List Nat) :
    (values.foldl (fun acc v => if p v then acc else bump acc (f v))
      init).length = init.length := by
  induction values generalizing init with
  | nil => rfl
  | cons v vs ih =>
    rw [List.foldl_cons, ih]
    by_cases hp : p v
    · rw [if_pos hp]
    · rw [if_neg hp, bump_length]

theorem foldl_skipBump_sum {α : Type} (p : α → Prop) [DecidablePred p]
    (f : α → Nat) (values : List α) (init : List Nat)
    (h : ∀ v ∈ values, ¬ p v → f v < init.length) :
    (values.foldl (fun acc v => if p v then acc else bump acc (f v))
        init).sum =
      init.sum + values.countP (fun v => !decide (p v)) := by
  induction values generalizing init with
  | nil => simp
  | cons v vs ih =>
    rw [List.foldl_cons, List.countP_cons]
    by_cases hp : p v
    · rw [if_pos hp, ih init (fun w hw => h w (List.mem_cons_of_mem v hw))]
      simp [hp]
    · rw [if_neg hp, ih (bump init (f v)) (fun w hw hnw => by
        rw [bump_length]; exact h w (List.mem_cons_of_mem v hw) hnw)]
      rw [bump_sum init (f v) (h v (List.mem_cons_self v vs) hp)]
      simp [hp]
      omega

theorem foldl_skipBump_getD {α : Type} (p : α → Prop) [DecidablePred p]
    (f : α → Nat) (values : List α) (init : List Nat) (i : Nat)
    (hi : i < init.length)
    (h : ∀ v ∈ values, ¬ p v → f v < init.length) :
    (values.foldl (fun acc v => if p v then acc else bump acc (f v))
        init).getD i 0 =
      init.getD i 0 + values.countP (fun v => !decide (p v) && (f v == i)) := by
  induction values generalizing init with
  | nil => simp
  | cons v vs ih =>
    rw [List.foldl_cons, List.countP_cons]
    by_cases hp : p v
    · rw [if_pos hp, ih init hi (fun w hw => h w (List.mem_cons_of_mem v hw))]
      simp [hp]
    · rw [if_neg hp, ih (bump init (f v)) (by rw [bump_length]; exact hi)
        (fun w hw hnw => by
          rw [bump_length]; exact h w (List.mem_cons_of_mem v hw) hnw)]
      rw [bump_getD init (f v) i]
      by_cases hfv : f v = i
      · rw [if_pos ⟨hfv, h v (List.mem_cons_self v vs) hp⟩]
        simp [hp, hfv]
        omega
      · rw [if_neg (by tauto)]
        simp [hp, hfv]

theorem foldl_min_le_init {α : Type} [LinearOrder α] (l : List α) (a : α) :
    l.foldl min a ≤ a := by
  induction l generalizing a with
  | nil => simp
  | cons x xs ih => exact le_trans (ih (min a x)) (min_le_left a x)

theorem foldl_min_le_mem {α : Type} [LinearOrder α] {l : List α} {v : α}
    (h : v ∈ l) (a : α) : l.foldl min a ≤ v := by
  induction l generalizing a with
  | nil => cases h
  | cons x xs ih =>
    rcases List.mem_cons.mp h with rfl | hv
    · exact le_trans (foldl_min_le_init xs (min a v)) (min_le_right a v)
    · exact ih hv (min a x)

theorem init_le_foldl_max {α : Type} [LinearOrder α] (l : List α) (a : α) :
    a ≤ l.foldl max a := by
  induction l generalizing a with
  | nil => simp
  | cons x xs ih => exact le_trans (le_max_left a x) (ih (max a x))

theorem mem_le_foldl_max {α : Type} [LinearOrder α] {l : List α} {v : α}
    (h : v ∈ l) (a : α) : v ≤ l.foldl max a := by
  induction l generalizing a with
  | nil => cases h
  | cons x xs ih =>
    rcases List.mem_cons.mp h with rfl | hv
    · exact le_trans (le_max_right a v) (init_le_foldl_max xs (max a v))
    · exact ih hv (max a x)

theorem listMin_le {l : List ℚ} {v : ℚ} (h : v ∈ l) : listMin l ≤ v := by
  cases l with
  | nil => cases h
  | cons x xs =>
    rcases List.mem_cons.mp h with rfl | hv
    · exact foldl_min_le_init xs v
    · exact foldl_min_le_mem hv x

theorem le_listMax {l : List ℚ} {v : ℚ} (h : v ∈ l) : v ≤ listMax l := by
  cases l with
  | nil => cases h
  | cons x xs =>
    rcases List.mem_cons.mp h with rfl | hv
    · exact init_le_foldl_max xs v
    · exact mem_le_foldl_max hv x

theorem listMinN_le {l : List Nat} {v : Nat} (h : v ∈ l) : listMinN l ≤ v := by
  cases l with
  | nil => cases h
  | cons x xs =>
    rcases List.mem_cons.mp h with rfl | hv
    · exact foldl_min_le_init xs v
    · exact foldl_min_le_mem hv x

theorem le_listMaxN {l : List Nat} {v : Nat} (h : v ∈ l) : v ≤ listMaxN l := by
  cases l with
  | nil => cases h
  | cons x xs =>
    rcases List.mem_cons.mp h with rfl | hv
    · exact init_le_foldl_max xs v
    · exact mem_le_foldl_max hv x

/-- Truncating after a clamp is the clamp of the truncation: the cast
`(x.min(m as f64)) as usize` equals `min (floor x) m`. -/
theorem floor_min_natCast (x : ℚ) (m : Nat) :
    Nat.floor (min x (m : ℚ)) = min (Nat.floor x) m := by
  rcases le_total x (m : ℚ) with h | h
  · rw [min_eq_left h, min_eq_left]
    calc Nat.floor x ≤ Nat.floor ((m : ℚ)) := Nat.floor_mono h
      _ = m := Nat.floor_natCast m
  · rw [min_eq_right h, Nat.floor_natCast, min_eq_right]
    exact Nat.le_floor h

/-- Reading every position of a counts vector back off by index. -/
theorem range_map_getD (l : List Nat) (n : Nat) (h : l.length = n) :
    (List.range n).map (fun i => l.getD i 0) = l := by
  subst h
  apply List.ext_getElem
  · simp
  · intro i h1 h2
    simp [List.getD_eq_getElem?_getD, List.getElem?_eq_getElem h2]

theorem binIdx_lt (mn bw : ℚ) (n : Nat) (hn : 1 ≤ n) (v : ℚ) :
    binIdx mn bw n v < n := by
  unfold binIdx
  rw [floor_min_natCast]
  have := min_le_right (Nat.floor ((v - mn) / bw)) (n - 1)
  omega

theorem intBinIdx_lt (mn bw n : Nat) (hn : 1 ≤ n) (v : Nat) :
    intBinIdx mn bw n v < n := by
  unfold intBinIdx
  by_cases h : 0 < bw
  · rw [if_pos h]
    have := min_le_right ((v - mn) / bw) (n - 1)
    omega
  · rw [if_neg h]
    omega

theorem binCounts_length (values : List ℚ) (mn mx bw : ℚ) (n : Nat) :
    (binCounts values mn mx bw n).length = n := by
  unfold binCounts
  rw [foldl_skipBump_length, List.length_replicate]

theorem intBinCounts_length (values : List Nat) (mn mx bw n : Nat) :
    (intBinCounts values mn mx bw n).length = n := by
  unfold intBinCounts
  rw [foldl_skipBump_length, List.length_replicate]

theorem binCounts_sum (values : List ℚ) (bw : ℚ) (n : Nat) (hn : 1 ≤ n) :
    (binCounts values (listMin values) (listMax values) bw n).sum
      = values.length := by
  unfold binCounts
  rw [foldl_skipBump_sum _ _ values _ (fun v hv _ => by
    rw [List.length_replicate]; exact binIdx_lt _ bw n hn v)]
  have hrep : (List.replicate n (0 : Nat)).sum = 0 := by
    simp
  rw [hrep, Nat.zero_add, List.countP_eq_length]
  intro v hv
  have h1 := listMin_le hv
  have h2 := le_listMax hv
  simp only [Bool.not_eq_true', decide_eq_false_iff_not, not_or, not_lt]
  exact ⟨h1, h2⟩

theorem intBinCounts_sum (values : List Nat) (bw n : Nat) (hn : 1 ≤ n) :
    (intBinCounts values (listMinN values) (listMaxN values) bw n).sum
      = values.length := by
  unfold intBinCounts
  rw [foldl_skipBump_sum _ _ values _ (fun v hv _ => by
    rw [List.length_replicate]; exact intBinIdx_lt _ bw n hn v)]
  have hrep : (List.replicate n (0 : Nat)).sum = 0 := by
    simp
  rw [hrep, Nat.zero_add, List.countP_eq_length]
  intro v hv
  have h1 := listMinN_le hv
  have h2 := le_listMaxN hv
  simp only [Bool.not_eq_true', decide_eq_false_iff_not, not_or, not_lt]
  exact ⟨h1, h2⟩

/-- C9: for every non-empty value sequence and `num_bins ≥ 1`, the bin
counts of the built histogram sum to the number of input values in
`[min, max]`, which — `min`/`max` being the extremes of the same input —
is the total number of input values; this holds for both `Histogram`
(over `f64`) and `IntHistogram` (over `usize`). -/
theorem hist_count_conservation (values : List ℚ) (ivalues : List Nat)
    (numBins : Nat) (hne : values ≠ []) (hine : ivalues ≠ [])
    (hn : 1 ≤ numBins) :
    ((Hist.new values numBins).bins.map (fun b => b.2.2)).sum
        = values.length ∧
    ((IntHist.new ivalues numBins).bins.map (fun b => b.2.2)).sum
        = ivalues.length := by
  constructor
  · unfold Hist.new
    simp only [List.map_map, Function.comp_def]
    rw [range_map_getD _ numBins (binCounts_length values _ _ _ numBins)]
    exact binCounts_sum values _ numBins hn
  · unfold IntHist.new
    simp only [List.map_map, Function.comp_def]
    rw [range_map_getD _ numBins (intBinCounts_length ivalues _ _ _ numBins)]
    exact intBinCounts_sum ivalues _ numBins hn

/-- C9 witness: the theorem instantiated at `values = [1, 2, 4]`,
`ivalues = [3, 5]`, `num_bins = 2`. -/
theorem hist_count_conservation_witness :
    ([1, 2, 4] : List ℚ) ≠ [] ∧ ([3, 5] : List Nat) ≠ [] ∧ 1 ≤ 2 ∧
    (((Hist.new [1, 2, 4] 2).bins.map (fun b => b.2.2)).sum
        = ([1, 2, 4] : List ℚ).length ∧
      ((IntHist.new [3, 5] 2).bins.map (fun b => b.2.2)).sum
        = ([3, 5] : List Nat).length) :=
  ⟨by decide, by decide, by decide,
    hist_count_conservation [1, 2, 4] [3, 5] 2 (by decide) (by decide)
      (by decide)⟩

/-- C8: for every non-empty `f64` sequence (NaN-free) and `num_bins ≥ 1`,
`Histogram::new` lays the bin starts out with
`bin_width = (max - min) / num_bins` when `max ≠ min` and `1.0` when
`max = min`, counts each value `v` in bin
`floor((v - min) / bin_width)` clamped to at most `num_bins - 1`, and the
displayed upper edge of the last bin is exactly `max`. -/
theorem hist_bins_spec (values : List ℚ) (numBins : Nat)
    (hne : values ≠ []) (hn : 1 ≤ numBins) :
    (Hist.new values numBins).bins.map (fun b => b.1) =
      (List.range numBins).map (fun (i : Nat) => listMin values + (i : ℚ) *
        (if listMax values = listMin values then 1
          else (listMax values - listMin values) / (numBins : ℚ))) ∧
    (Hist.new values numBins).bins.map (fun b => b.2.2) =
      (List.range numBins).map (fun (i : Nat) => values.countP (fun v =>
        min (Nat.floor ((v - listMin values) /
            (if listMax values = listMin values then 1
              else (listMax values - listMin values) / (numBins : ℚ))))
          (numBins - 1) == i)) ∧
    ((Hist.new values numBins).bins.map (fun b => b.2.1)).getLast? =
      some (listMax values) := by
  have hbw : binWidth (listMin values) (listMax values) numBins =
      (if listMax values = listMin values then 1
        else (listMax values - listMin values) / (numBins : ℚ)) := rfl
  refine ⟨?_, ?_, ?_⟩
  · unfold Hist.new
    simp only [List.map_map, Function.comp_def, hbw]
  · unfold Hist.new
    simp only [List.map_map, Function.comp_def]
    apply List.map_congr_left
    intro i hi
    have hilt : i < numBins := List.mem_range.mp hi
    unfold binCounts
    rw [foldl_skipBump_getD _ _ values _ i
      (by rw [List.length_replicate]; exact hilt)
      (fun v hv _ => by
        rw [List.length_replicate]
        exact binIdx_lt _ _ numBins hn v)]
    have hrep : (List.replicate numBins (0 : Nat)).getD i 0 = 0 := by
      simp [List.getD_eq_getElem?_getD, List.getElem?_replicate, hilt]
    rw [hrep, Nat.zero_add]
    apply List.countP_congr
    intro v hv
    have h1 := listMin_le hv
    have h2 := le_listMax hv
    have hskip : ¬(v < listMin values ∨ listMax values < v) := by
      push_neg
      exact ⟨h1, h2⟩
    have hidx : binIdx (listMin values) (binWidth (listMin values)
        (listMax values) numBins) numBins v =
        min (Nat.floor ((v - listMin values) /
          (if listMax values = listMin values then 1
            else (listMax values - listMin values) / (numBins : ℚ))))
          (numBins - 1) := by
      unfold binIdx
      rw [floor_min_natCast, hbw]
    simp [hskip, hidx]
  · unfold Hist.new
    simp only [List.map_map, Function.comp_def]
    rw [List.getLast?_eq_getElem?]
    simp only [List.length_map, List.length_range]
    rw [List.getElem?_map, List.getElem?_range (by omega : numBins - 1 < numBins)]
    simp

/-- C8 witness: the theorem instantiated at `values = [1, 2, 4]`,
`num_bins = 2`. -/
theorem hist_bins_spec_witness :
    ([1, 2, 4] : List ℚ) ≠ [] ∧ 1 ≤ 2 ∧
    ((Hist.new [1, 2, 4] 2).bins.map (fun b => b.1) =
      (List.range 2).map (fun (i : Nat) => listMin [1, 2, 4] + (i : ℚ) *
        (if listMax [1, 2, 4] = listMin [1, 2, 4] then 1
          else (listMax [1, 2, 4] - listMin [1, 2, 4]) / (2 : ℚ))) ∧
    (Hist.new [1, 2, 4] 2).bins.map (fun b => b.2.2) =
      (List.range 2).map (fun (i : Nat) => List.countP (fun v =>
        min (Nat.floor ((v - listMin [1, 2, 4]) /
            (if listMax [1, 2, 4] = listMin [1, 2, 4] then 1
              else (listMax [1, 2, 4] - listMin [1, 2, 4]) / (2 : ℚ))))
          (2 - 1) == i) [1, 2, 4]) ∧
    ((Hist.new [1, 2, 4] 2).bins.map (fun b => b.2.1)).getLast? =
      some (listMax [1, 2, 4])) :=
  ⟨by decide, by decide, hist_bins_spec [1, 2, 4] 2 (by decide) (by decide)⟩

/-- A decoded cell of a Polars column (`AnyValue`), restricted to the
variants the viewer's datasets exercise. -/
inductive Cell where
  | float (q : ℚ)
  | str (s : String)
  | null
deriving DecidableEq

/-- `AnyValue::extract::<f64>()`: succeeds only on a numeric cell. -/
def extractF64 : Cell → Option ℚ
  | .float q => some q
  | _ => none

/-- The transcription extraction of `extract_parquet_file` (lines 288-292):
the string itself for a string cell, otherwise the deterministic
`AnyValue::to_string` fallback. -/
def cellString : Cell → String
  | .str s => s
  | .float q => toString q
  | .null => "null"

/-- One row of the normalized batch, as `extract_parquet_file` reads it:
the binary payload (a null entry makes `binary_arr.get(i).unwrap()` panic),
the `duration` cell and the `transcription` cell. -/
structure Row where
  bytes : Option (List Nat)
  duration : Cell
  transcription : Cell

/-- The dataset's cache subdirectory: row index `i` maps to the contents
of `<tmp>/<dataset>/<i>.wav`, or `none` when that file does not exist. -/
def FS : Type := Nat → Option (List Nat)

/-- The empty cache subdirectory. -/
def emptyFS : FS := fun _ => none

/-- Writing file `i.wav`. -/
def fsUpdate (fs : FS) (i : Nat) (b : List Nat) : FS :=
  fun j => if j = i then some b else fs j

/-- The record `extract_parquet_file` pushes for each row (lines 294-300). -/
structure Audio where
  path : String
  duration : ℚ
  transcription : String
deriving DecidableEq

/-- The write step for row `i` (lines 281-285): skip when `i.wav` exists,
otherwise write the payload (`none` models the panic on a null payload). -/
def writePhase (i : Nat) (r : Row) (fs : FS) : Option FS :=
  if fs i = none then
    match r.bytes with
    | none => none
    | some b => some (fsUpdate fs i b)
  else some fs

/-- The metadata step for row `i` (lines 287-292): the double `unwrap` on
`duration` panics (`none`) unless the cell extracts as `f64`. -/
def metaPhase (i : Nat) (r : Row) : Option Audio :=
  match extractF64 r.duration with
  | none => none
  | some d => some ⟨toString i ++ ".wav", d, cellString r.transcription⟩

/-- One iteration of the materialization loop for row `i`. -/
def materializeRow (i : Nat) (r : Row) (fs : FS) : Option (FS × Audio) :=
  (writePhase i r fs).bind (fun fs' => (metaPhase i r).map (fun a => (fs', a)))

/-- The loop of `extract_parquet_file` (lines 278-301) from row index `i`. -/
def matGo : Nat → List Row → FS → Option (FS × List Audio)
  | _, [], fs => some (fs, [])
  | i, r :: rs, fs =>
    (materializeRow i r fs).bind (fun p =>
      (matGo (i + 1) rs p.1).bind (fun q => some (q.1, p.2 :: q.2)))

/-- `extract_parquet_file`'s materialization pass over a normalized batch
against the dataset's cache subdirectory; `none` is a panic aborting the
whole call. -/
def materialize (rows : List Row) (fs : FS) : Option (FS × List Audio) :=
  matGo 0 rows fs

theorem materializeRow_mono (i : Nat) (r : Row) (fs fs' : FS) (a : Audio)
    (h : materializeRow i r fs = some (fs', a)) :
    ∀ j b, fs j = some b → fs' j = some b := by
  intro j b hj
  unfold materializeRow writePhase at h
  by_cases hfi : fs i = none
  · rw [if_pos hfi] at h
    cases hb : r.bytes with
    | none => rw [hb] at h; cases h
    | some bs =>
      rw [hb] at h
      simp only [Option.some_bind] at h
      cases hm : metaPhase i r with
      | none => rw [hm] at h; cases h
      | some a' =>
        rw [hm] at h
        simp only [Option.map_some'] at h
        cases h
        unfold fsUpdate
        by_cases hji : j = i
        · subst hji; rw [hj] at hfi; cases hfi
        · rw [if_neg hji]; exact hj
  · rw [if_neg hfi] at h
    simp only [Option.some_bind] at h
    cases hm : metaPhase i r with
    | none => rw [hm] at h; cases h
    | some a' =>
      rw [hm] at h
      simp only [Option.map_some'] at h
      cases h
      exact hj

theorem matGo_mono (rows : List Row) (i : Nat) (fs fs₁ : FS)
    (recs : List Audio) (h : matGo i rows fs = some (fs₁, recs)) :
    ∀ j b, fs j = some b → fs₁ j = some b := by
  induction rows generalizing i fs recs with
  | nil =>
    intro j b hj
    simp only [matGo, Option.some.injEq, Prod.mk.injEq] at h
    exact h.1 ▸ hj
  | cons r rs ih =>
    intro j b hj
    simp only [matGo] at h
    cases hw : materializeRow i r fs with
    | none => rw [hw] at h; cases h
    | some p =>
      rw [hw] at h
      simp only [Option.some_bind] at h
      cases hg : matGo (i + 1) rs p.1 with
      | none => rw [hg] at h; cases h
      | some q =>
        rw [hg] at h
        simp only [Option.some_bind, Option.some.injEq, Prod.mk.injEq] at h
        have hq1 : q.1 = fs₁ := h.1
        exact hq1 ▸ ih (i + 1) p.1 q.2 (by rw [hg, ← hq1]) j b
          (materializeRow_mono i r fs p.1 p.2 (by rw [hw]) j b hj)

theorem materializeRow_written (i : Nat) (r : Row) (fs : FS) (p : FS × Audio)
    (h : materializeRow i r fs = some p) : ∃ b, p.1 i = some b := by
  unfold materializeRow writePhase at h
  by_cases hfi : fs i = none
  · rw [if_pos hfi] at h
    cases hb : r.bytes with
    | none => rw [hb] at h; cases h
    | some bs =>
      rw [hb] at h
      simp only [Option.some_bind] at h
      cases hm : metaPhase i r with
      | none => rw [hm] at h; cases h
      | some a' =>
        rw [hm] at h
        simp only [Option.map_some'] at h
        cases h
        exact ⟨bs, by simp [fsUpdate]⟩
  · rw [if_neg hfi] at h
    simp only [Option.some_bind] at h
    cases hm : metaPhase i r with
    | none => rw [hm] at h; cases h
    | some a' =>
      rw [hm] at h
      simp only [Option.map_some'] at h
      cases h
      cases hfs : fs i with
      | none => exact absurd hfs hfi
      | some b => exact ⟨b, hfs⟩

theorem materializeRow_meta (i : Nat) (r : Row) (fs : FS) (p : FS × Audio)
    (h : materializeRow i r fs = some p) : metaPhase i r = some p.2 := by
  unfold materializeRow at h
  cases hw : writePhase i r fs with
  | none => rw [hw] at h; cases h
  | some fs' =>
    rw [hw] at h
    simp only [Option.some_bind] at h
    cases hm : metaPhase i r with
    | none => rw [hm] at h; cases h
    | some a' =>
      rw [hm] at h
      simp only [Option.map_some'] at h
      cases h
      rfl

theorem materializeRow_exists (i : Nat) (r : Row) (fs : FS) (a : Audio)
    (hex : ∃ b, fs i = some b) (hm : metaPhase i r = some a) :
    materializeRow i r fs = some (fs, a) := by
  obtain ⟨b, hb⟩ := hex
  unfold materializeRow writePhase
  rw [if_neg (by rw [hb]; exact Option.some_ne_none b)]
  simp only [Option.some_bind, hm, Option.map_some']

theorem matGo_idem (rows : List Row) (i : Nat) (fs fs₁ : FS)
    (recs : List Audio) (h : matGo i rows fs = some (fs₁, recs)) :
    matGo i rows fs₁ = some (fs₁, recs) := by
  induction rows generalizing i fs recs with
  | nil =>
    simp only [matGo, Option.some.injEq, Prod.mk.injEq] at h ⊢
    exact ⟨trivial, h.2⟩
  | cons r rs ih =>
    simp only [matGo] at h ⊢
    cases hw : materializeRow i r fs with
    | none => rw [hw] at h; cases h
    | some p =>
      rw [hw] at h
      simp only [Option.some_bind] at h
      cases hg : matGo (i + 1) rs p.1 with
      | none => rw [hg] at h; cases h
      | some q =>
        rw [hg] at h
        simp only [Option.some_bind, Option.some.injEq, Prod.mk.injEq] at h
        obtain ⟨b, hbw⟩ := materializeRow_written i r fs p hw
        have hfs₁ : fs₁ i = some b := by
          have := matGo_mono rs (i + 1) p.1 q.1 q.2
            (by rw [hg]) i b hbw
          rw [← h.1]; exact this
        rw [materializeRow_exists i r fs₁ p.2 ⟨b, hfs₁⟩
          (materializeRow_meta i r fs p hw)]
        simp only [Option.some_bind]
        rw [ih (i + 1) p.1 q.2 (by rw [hg, ← h.1])]
        simp only [Option.some_bind, Option.some.injEq, Prod.mk.injEq]
        exact ⟨trivial, h.2⟩

/-- C2: materialization is idempotent — if `i.wav` already exists its
contents are never rewritten, and a second `materialize` over the same
batch and cache root returns the same `AudioRecord` sequence (equal
paths, durations, transcriptions) while leaving every on-disk file
byte-identical. -/
theorem materialize_idempotent (rows : List Row) (fs fs₁ : FS)
    (recs : List Audio) (h : materialize rows fs = some (fs₁, recs)) :
    (∀ j b, fs j = some b → fs₁ j = some b) ∧
    materialize rows fs₁ = some (fs₁, recs) :=
  ⟨matGo_mono rows 0 fs fs₁ recs h, matGo_idem rows 0 fs fs₁ recs h⟩

/-- A one-row batch used to instantiate the idempotence theorem. -/
def wRow : Row := ⟨some [82, 73, 70, 70], .float (3 / 2), .str "hello"⟩

/-- The cache state after materializing `wRow` into an empty cache. -/
def wFS : FS := fsUpdate emptyFS 0 [82, 73, 70, 70]

/-- The record sequence produced for `wRow`. -/
def wRecs : List Audio :=
  [⟨toString 0 ++ ".wav", 3 / 2, cellString (.str "hello")⟩]

/-- C2 witness: the theorem applied to the concrete one-row batch `wRow`
materialized into the empty cache. -/
theorem materialize_idempotent_witness :
    (∀ j b, emptyFS j = some b → wFS j = some b) ∧
    materialize [wRow] wFS = some (wFS, wRecs) :=
  materialize_idempotent [wRow] emptyFS wFS wRecs rfl

/-- C4: the claim that a row with an absent (or non-numeric) `duration`
is dropped while the rest of the batch is still processed fails on the
code: the `unwrap` at line 287 panics, aborting the whole call (modelled
as `none`), even though the remaining row on its own materializes fine. -/
theorem metadata_error_aborts_call :
    materialize
        [⟨some [1], .null, .str "bad"⟩, ⟨some [2], .float 2, .str "ok"⟩]
        emptyFS = none ∧
    (materialize [⟨some [2], .float 2, .str "ok"⟩] emptyFS).isSome = true := by
  constructor
  · rfl
  · rfl

/-- A typed Polars error as surfaced by `PolarsResult`. -/
inductive PErr where
  | ioError
  | columnNotFound (c : String)
  | notStruct (c : String)
deriving DecidableEq

/-- A column of the source file: a scalar column, or a struct column with
named fields (the nested `audio` column). -/
inductive PCol where
  | plain (name : String)
  | strct (name : String) (fields : List String)
deriving DecidableEq

/-- The name of a column. -/
def colName : PCol → String
  | .plain n => n
  | .strct n _ => n

/-- A source parquet file for the purposes of `extract_parquet`:
whether `File::open` + `ParquetReader::finish` succeed, and the decoded
column layout. -/
structure PqFile where
  openOk : Bool
  cols : List PCol

/-- The outcome of `extract_parquet`: a normalized column list, a typed
`PolarsResult` error, or a crash (an `unwrap` panic). -/
inductive PqOutcome where
  | ok (cols : List String)
  | err (e : PErr)
  | crashed
deriving DecidableEq

/-- `DataFrame::unnest(["audio"])`: flattens the struct column into its
fields; a typed error when the column is absent or not a struct. -/
def unnestCol (cols : List PCol) (target : String) : Except PErr (List String) :=
  if cols.any (fun c => match c with
      | .strct n _ => n = target
      | .plain _ => false) then
    .ok (cols.flatMap (fun c => match c with
      | .plain n => [n]
      | .strct n fs => if n = target then fs else [n]))
  else if cols.any (fun c => colName c = target) then
    .error (.notStruct target)
  else .error (.columnNotFound target)

/-- `DataFrame::rename(old, new)`: a typed error when `old` is absent. -/
def renameCol (cols : List String) (old new : String) :
    Except PErr (List String) :=
  if cols.contains old then
    .ok (cols.map (fun c => if c = old then new else c))
  else .error (.columnNotFound old)

/-- `extract_parquet` (`main.rs` lines 53-75): open and decode the file,
unnest the `audio` struct column, then rename `bytes`, `sampling_rate`
and `path` — each rename result being `.unwrap()`-ed inside `map`, so a
missing field is a panic (`crashed`), not a typed error. -/
def extract_parquet (f : PqFile) : PqOutcome :=
  if f.openOk = false then .err .ioError
  else
    match unnestCol f.cols "audio" with
    | .error e => .err e
    | .ok cols =>
      match renameCol cols "bytes" "audio_bytes" with
      | .error _ => .crashed
      | .ok cols =>
        match renameCol cols "sampling_rate" "audio_sampling_rate" with
        | .error _ => .crashed
        | .ok cols =>
          match renameCol cols "path" "audio_path" with
          | .error _ => .crashed
          | .ok cols => .ok cols

/-- C5: the claim that `normalize` fails with a typed value in exactly two
modes — `SourceReadError` on open/decode failure and `SchemaError` when
the nested column or any target column is absent after flattening — fails
on the code.  Open/decode failures and a missing `audio` column are
indeed typed errors, but a flattened batch missing the `bytes` field
makes the `rename("bytes", ...).unwrap()` panic (a crash, not a typed
failure), and a batch missing `duration`/`transcription` is accepted by
`extract_parquet` with no `SchemaError` at all (the absence only panics
later, at lines 270-271 of `extract_parquet_file`). -/
theorem normalize_error_modes :
    extract_parquet ⟨false, [.strct "audio" ["bytes", "sampling_rate", "path"],
        .plain "duration", .plain "transcription"]⟩ = .err .ioError ∧
    extract_parquet ⟨true, [.plain "duration", .plain "transcription"]⟩ =
      .err (.columnNotFound "audio") ∧
    extract_parquet ⟨true, [.strct "audio" ["sampling_rate", "path"],
        .plain "duration", .plain "transcription"]⟩ = .crashed ∧
    extract_parquet ⟨true, [.strct "audio" ["bytes", "sampling_rate", "path"]]⟩
      = .ok ["audio_bytes", "audio_sampling_rate", "audio_path"] := by
  refine ⟨rfl, rfl, rfl, rfl⟩

/-- Observable state of the target file `i.wav` during materialization:
absent, created but not yet fully written (`File::create` has truncated
it), or complete with its payload. -/
inductive FileSt where
  | absent
  | truncated
  | complete (b : List Nat)
deriving DecidableEq

/-- `Path::exists()` is true as soon as the file is created. -/
def fileExists : FileSt → Bool
  | .absent => false
  | _ => true

/-- Program counter of one caller running lines 281-285 for a fixed row:
the `exists` check, the `File::create` call, the `io::copy` call, done. -/
inductive CallerPC where
  | check
  | create
  | write
  | done
deriving DecidableEq

/-- One atomic step of a caller; the `Nat` is `1` when this step performs
the binary write.  `File::create` truncates the file even when a
concurrent caller has already completed it. -/
def callerStep (b : List Nat) (pc : CallerPC) (f : FileSt) :
    CallerPC × FileSt × Nat :=
  match pc with
  | .check => if fileExists f then (.done, f, 0) else (.create, f, 0)
  | .create => (.write, .truncated, 0)
  | .write => (.done, .complete b, 1)
  | .done => (.done, f, 0)

/-- Joint state of two callers racing to materialize the same
`(dataset, index)`, plus the count of binary writes performed. -/
structure RaceState where
  file : FileSt
  pcA : CallerPC
  pcB : CallerPC
  writes : Nat
deriving DecidableEq

/-- Initial state: empty cache, both callers about to run the check. -/
def raceInit : RaceState := ⟨.absent, .check, .check, 0⟩

/-- Interleave the two callers: `true` steps caller A, `false` caller B. -/
def raceStep (bA bB : List Nat) (s : RaceState) (pickA : Bool) : RaceState :=
  if pickA then
    let r := callerStep bA s.pcA s.file
    { s with pcA := r.1, file := r.2.1, writes := s.writes + r.2.2 }
  else
    let r := callerStep bB s.pcB s.file
    { s with pcB := r.1, file := r.2.1, writes := s.writes + r.2.2 }

/-- Run a schedule of interleaved caller steps from the empty cache. -/
def raceRun (bA bB : List Nat) (sched : List Bool) : RaceState :=
  sched.foldl (raceStep bA bB) raceInit

/-- C1: the claimed concurrency guarantee — exactly one binary write, and
no reader ever observing a partially written file — fails on the code,
which writes directly to the final path (`File::create` then `io::copy`,
no temporary-plus-rename) after a bare `exists()` check.  Under the
schedule where both callers pass the `exists()` check before either
creates the file, two binary writes occur; moreover after caller A has
already completed its write, caller B's `File::create` truncates the
file back to a partial state observable by any reader; a purely
sequential pair of calls performs just one write. -/
theorem race_two_writes :
    (raceRun [82, 73, 70, 70] [82, 73, 70, 70]
      [true, false, true, true, false, false]).writes = 2 ∧
    (raceRun [82, 73, 70, 70] [82, 73, 70, 70]
        [true, false, true, true, false]).file = .truncated ∧
    (raceRun [82, 73, 70, 70] [82, 73, 70, 70]
        [true, false, true, true]).writes = 1 ∧
    (raceRun [82, 73, 70, 70] [82, 73, 70, 70]
      [true, true, true, false, false, false]).writes = 1 := by
  refine ⟨rfl, rfl, rfl, rfl⟩

/-- Zero-padding to a minimum width `w`, the semantics of Rust's `{:0w}`
format (wider numbers print in full). -/
def pad (w n : Nat) : String :=
  let s := toString n
  if s.length < w then String.mk (List.replicate (w - s.length) '0') ++ s
  else s

/-- Rust's `f64::round` (round half away from zero) on a non-negative
rational, then cast to `u64`. -/
def rustRound (q : ℚ) : Nat := Nat.floor (q + 1 / 2)

/-- `format_duration` (`main.rs` lines 307-319), on the non-negative
durations the data model prescribes: `total_seconds = seconds.floor()`,
fields `hours`, `minutes`, `secs`, and
`millis = (seconds.fract() * 1000.0).round()`. -/
def format_duration (seconds : ℚ) : String :=
  let total := Nat.floor seconds
  let hours := total / 3600
  let minutes := total % 3600 / 60
  let secs := total % 60
  let millis := rustRound ((seconds - (total : ℚ)) * 1000)
  if 0 < hours then
    pad 2 hours ++ ":" ++ pad 2 minutes ++ ":" ++ pad 2 secs ++ "." ++
      pad 3 millis
  else
    pad 2 minutes ++ ":" ++ pad 2 secs ++ "." ++ pad 3 millis

/-- C10 counterexample: at `seconds = 59.9995` (= `119999/2000`) the
rounded milliseconds field is `1000`, so the output is `"00:59.1000"` —
ten characters, not the nine-character `"MM:SS.mmm"` shape with a
three-digit milliseconds field that the claim asserts for all inputs with
`floor(seconds) < 3600`. -/
theorem format_duration_cex :
    Nat.floor (119999 / 2000 : ℚ) < 3600 ∧
    format_duration (119999 / 2000 : ℚ) = "00:59.1000" ∧
    (format_duration (119999 / 2000 : ℚ)).length ≠ 9 := by
  have hfl : Nat.floor (119999 / 2000 : ℚ) = 59 := by
    rw [Nat.floor_eq_iff (by norm_num)]
    norm_num
  have hms : rustRound (((119999 / 2000 : ℚ) - ((59 : Nat) : ℚ)) * 1000)
      = 1000 := by
    unfold rustRound
    have harg : ((119999 / 2000 : ℚ) - ((59 : Nat) : ℚ)) * 1000 + 1 / 2
        = 1000 := by
      push_cast
      norm_num
    rw [harg]
    norm_num
  have hstr : format_duration (119999 / 2000 : ℚ) = "00:59.1000" := by
    unfold format_duration
    rw [hfl]
    dsimp only
    rw [hms]
    decide
  exact ⟨by rw [hfl]; norm_num, hstr, by rw [hstr]; decide⟩

/-- C10 (amended): for every finite `seconds ≥ 0`, `format_duration`
returns `HH:MM:SS.mmm` when `floor(seconds) ≥ 3600` and `MM:SS.mmm`
otherwise, with each field zero-padded to a minimum width (two digits for
hours, minutes, seconds; three for milliseconds); minutes and seconds are
always below `60`, and the milliseconds field `round(fract * 1000)` is at
most `1000` — the value `1000` (four digits instead of three) occurring
exactly when the fractional part is at least `0.9995`. -/
theorem format_duration_spec (q : ℚ) (hq : 0 ≤ q) :
    format_duration q =
      (if 3600 ≤ Nat.floor q then
        pad 2 (Nat.floor q / 3600) ++ ":" ++ pad 2 (Nat.floor q % 3600 / 60) ++
          ":" ++ pad 2 (Nat.floor q % 60) ++ "." ++
          pad 3 (rustRound ((q - (Nat.floor q : ℚ)) * 1000))
      else
        pad 2 (Nat.floor q % 3600 / 60) ++ ":" ++ pad 2 (Nat.floor q % 60) ++
          "." ++ pad 3 (rustRound ((q - (Nat.floor q : ℚ)) * 1000))) ∧
    Nat.floor q % 3600 / 60 < 60 ∧ Nat.floor q % 60 < 60 ∧
    rustRound ((q - (Nat.floor q : ℚ)) * 1000) ≤ 1000 := by
  have hfr0 : (0 : ℚ) ≤ q - (Nat.floor q : ℚ) := by
    have := Nat.floor_le hq
    linarith
  have hfr1 : q - (Nat.floor q : ℚ) < 1 := by
    have := Nat.lt_floor_add_one q
    linarith
  refine ⟨?_, by omega, by omega, ?_⟩
  · unfold format_duration
    by_cases hc : 3600 ≤ Nat.floor q
    · rw [if_pos (Nat.div_pos hc (by norm_num)), if_pos hc]
    · rw [if_neg (by omega), if_neg hc]
  · have hlt : rustRound ((q - (Nat.floor q : ℚ)) * 1000) < 1001 := by
      unfold rustRound
      rw [Nat.floor_lt (by linarith)]
      nlinarith
    omega

/-- C10 witness: the amended theorem instantiated at `seconds = 3/2`. -/
theorem format_duration_spec_witness :
    (0 : ℚ) ≤ 3 / 2 ∧
    (format_duration (3 / 2 : ℚ) =
      (if 3600 ≤ Nat.floor (3 / 2 : ℚ) then
        pad 2 (Nat.floor (3 / 2 : ℚ) / 3600) ++ ":" ++
          pad 2 (Nat.floor (3 / 2 : ℚ) % 3600 / 60) ++ ":" ++
          pad 2 (Nat.floor (3 / 2 : ℚ) % 60) ++ "." ++
          pad 3 (rustRound (((3 / 2 : ℚ) - (Nat.floor (3 / 2 : ℚ) : ℚ)) * 1000))
      else
        pad 2 (Nat.floor (3 / 2 : ℚ) % 3600 / 60) ++ ":" ++
          pad 2 (Nat.floor (3 / 2 : ℚ) % 60) ++ "." ++
          pad 3 (rustRound (((3 / 2 : ℚ) - (Nat.floor (3 / 2 : ℚ) : ℚ)) * 1000))) ∧
    Nat.floor (3 / 2 : ℚ) % 3600 / 60 < 60 ∧ Nat.floor (3 / 2 : ℚ) % 60 < 60 ∧
    rustRound (((3 / 2 : ℚ) - (Nat.floor (3 / 2 : ℚ) : ℚ)) * 1000) ≤ 1000) :=
  ⟨by norm_num, format_duration_spec (3 / 2) (by norm_num)⟩
